import Mathlib

/-!
Verification of the Go CLI project scaffolder (`scaffold_project.py`,
`add_command.py`).  Python text is modelled as `List Char`; `str.replace`,
`str.split('\n')`, `'\n'.join`, substring tests and the line filters are
embedded as executable Lean functions, and the filesystem as an explicit
state (directory set plus file map) acted on by an event trace.
-/

namespace Scaffold

/-- Text is modelled as a list of characters. -/
abbrev Text := List Char

/-- Shorthand turning a Lean string literal into modelled text. -/
def strL (s : String) : Text := s.toList

/-- Prefix test on text: `isPre p t` holds when `p` is a leading segment of `t`. -/
def isPre (p t : Text) : Bool := List.isPrefixOf p t

/-- Substring containment, the model of Python's `pat in text`
(for nonempty `pat`). -/
def hasSub (p : Text) : Text → Bool
  | [] => p.isEmpty
  | c :: t => isPre p (c :: t) || hasSub p t

/-- Scanner underlying `replaceAll`: `skip` counts characters of an already
matched occurrence still to be consumed before scanning resumes. -/
def replAux (p v : Text) : Nat → Text → Text
  | _ + 1, [] => []
  | n + 1, _ :: t => replAux p v n t
  | 0, [] => []
  | 0, c :: t =>
    if isPre p (c :: t) then v ++ replAux p v (p.length - 1) t
    else c :: replAux p v 0 t

/-- Model of Python `text.replace(p, v)`: left-to-right, non-overlapping
replacement of every occurrence of `p` by `v`; the replacement value is not
rescanned.  An empty pattern leaves the text unchanged (the scaffolder never
passes one). -/
def replaceAll (p v : Text) (t : Text) : Text :=
  if p.isEmpty then t else replAux p v 0 t

/-- Scanner underlying `splitOnPat`, with the same `skip` convention as
`replAux`. -/
def splitAux (p : Text) : Nat → Text → List Text
  | _ + 1, [] => [[]]
  | n + 1, _ :: t => splitAux p n t
  | 0, [] => [[]]
  | 0, c :: t =>
    if isPre p (c :: t) then [] :: splitAux p (p.length - 1) t
    else
      match splitAux p 0 t with
      | [] => [[c]]
      | l :: ls => (c :: l) :: ls

/-- The chunks of `t` delimited by the left-to-right, non-overlapping
occurrences of the pattern `p` (the same scan `replaceAll` performs). -/
def splitOnPat (p : Text) (t : Text) : List Text :=
  if p.isEmpty then [t] else splitAux p 0 t

/-- Join a list of texts with a separator, the model of `sep.join(parts)`. -/
def joinWith (sep : Text) : List Text → Text
  | [] => []
  | [x] => x
  | x :: y :: ys => x ++ sep ++ joinWith sep (y :: ys)

/-- Model of Python `text.split('\n')`. -/
def splitLines : Text → List Text
  | [] => [[]]
  | c :: t =>
    if c == '\n' then [] :: splitLines t
    else
      match splitLines t with
      | [] => [[c]]
      | l :: ls => (c :: l) :: ls

/-- Model of Python `'\n'.join(lines)`. -/
def joinLines (ls : List Text) : Text := joinWith (strL "\n") ls

/-- ASCII model of Python `line.lower()`. -/
def lowerT (t : Text) : Text := t.map Char.toLower

/-- The default whitespace characters stripped by Python's `str.strip()`. -/
def isPySpace (c : Char) : Bool :=
  c == ' ' || c == '\t' || c == '\n' || c == '\r' || c == '\x0b' || c == '\x0c'

/-- Model of `line.strip() == ''`: the line is empty or all whitespace. -/
def isBlank (t : Text) : Bool := t.all isPySpace

/-- Model of `line.startswith('#')`. -/
def startsHash : Text → Bool
  | [] => false
  | c :: _ => c == '#'

/-! ### The four content filters of `scaffold_project.py` -/

/-- Filter from `remove_sqlite_from_gomod`: keep the lines of `go.mod` that do
not contain `go-sqlite3`. -/
def gomodKeep (line : Text) : Bool := !(hasSub (strL "go-sqlite3") line)

/-- Model of `remove_sqlite_from_gomod`. -/
def remove_sqlite_from_gomod (content : Text) : Text :=
  joinLines ((splitLines content).filter gomodKeep)

/-- The line conditions of `remove_database_from_root` (keeping Python's
`or`/`and` precedence on the first one). -/
def rootDrop (line : Text) : Bool :=
  (hasSub (strL "Database flag") line ||
    (hasSub (strL "database") line && hasSub (strL "rootCmd.PersistentFlags()") line)) ||
  (hasSub (strL "\"database\"") line && hasSub (strL "BindPFlag") line) ||
  hasSub (strL "viper.SetDefault(\"database\"") line ||
  hasSub (strL "Database: viper.GetString(\"database\")") line

/-- Model of `remove_database_from_root` (its `skip_next` variable is dead
code: the function is a pure per-line filter). -/
def remove_database_from_root (content : Text) : Text :=
  joinLines ((splitLines content).filter (fun l => !rootDrop l))

/-- Filter from `remove_database_from_config`: keep the lines that do not
contain `Database string`. -/
def configKeep (line : Text) : Bool := !(hasSub (strL "Database string") line)

/-- Model of `remove_database_from_config`. -/
def remove_database_from_config (content : Text) : Text :=
  joinLines ((splitLines content).filter configKeep)

/-- The trigger that opens the SQLite comment block skipped by
`remove_cgo_from_makefile` (Python precedence: `A or (B and C)`). -/
def cgoTrigger (line : Text) : Bool :=
  hasSub (strL "SQLite requires CGO") line ||
    (hasSub (strL "static linking") (lowerT line) && hasSub (strL "sqlite") (lowerT line))

/-- The condition that terminates the skipped comment block: a blank line or a
line not starting with `#`. -/
def cgoStop (line : Text) : Bool := isBlank line || !startsHash line

/-- The sequential line scan of `remove_cgo_from_makefile`, carrying the single
boolean `in_sqlite_comment` state. -/
def cgoScan : List Text → Bool → List Text
  | [], _ => []
  | line :: rest, inC =>
    if cgoTrigger line then cgoScan rest true
    else
      let inC' := if inC && cgoStop line then false else inC
      if inC' then cgoScan rest inC' else line :: cgoScan rest inC'

/-- Model of `remove_cgo_from_makefile`: drop every occurrence of
`CGO_ENABLED=1 ` and then strip the SQLite comment blocks line by line. -/
def remove_cgo_from_makefile (content : Text) : Text :=
  joinLines (cgoScan (splitLines (replaceAll (strL "CGO_ENABLED=1 ") [] content)) false)

/-! ### Filesystem model

Paths are lists of components (each a `Text`), relative to the filesystem
root; the state is the set of existing directories plus a file map where the
most recent write of a path shadows older entries. -/

/-- A filesystem path, as a list of name components. -/
abbrev FPath := List Text

/-- Filesystem state: existing directories and written files. -/
structure FS where
  dirs : List FPath
  files : List (FPath × Text)

/-- Model of `Path.exists()`: a directory or file is present at `p`. -/
def pathExists (fs : FS) (p : FPath) : Bool :=
  decide (p ∈ fs.dirs) || decide (p ∈ fs.files.map Prod.fst)

/-- Model of `p.mkdir(parents=True, exist_ok=True)`: `p` and all its
ancestors become directories. -/
def mkdirP (fs : FS) (p : FPath) : FS :=
  { fs with dirs := p.inits ++ fs.dirs }

/-- Model of `open(p, 'w').write(c)`: the new entry shadows any older file at
the same path (overwrite). -/
def writeFile (fs : FS) (p : FPath) (c : Text) : FS :=
  { fs with files := (p, c) :: fs.files }

/-- Filesystem events emitted by a run. -/
inductive Ev
  | mkdirp (p : FPath)
  | write (p : FPath) (c : Text)
deriving Repr

/-- Apply one event to the state. -/
def applyEv (fs : FS) : Ev → FS
  | .mkdirp p => mkdirP fs p
  | .write p c => writeFile fs p c

/-- Apply a trace of events left to right. -/
def applyEvs (fs : FS) (es : List Ev) : FS := es.foldl applyEv fs

/-- Walk a trace checking that every written file's parent directory exists at
the moment of the write. -/
def checkEvs (fs : FS) : List Ev → Bool
  | [] => true
  | .mkdirp p :: es => checkEvs (mkdirP fs p) es
  | .write p c :: es => decide (p.dropLast ∈ fs.dirs) && checkEvs (writeFile fs p c) es

/-- The file contents written by a trace, in order. -/
def writesOf : List Ev → List (FPath × Text)
  | [] => []
  | .mkdirp _ :: es => writesOf es
  | .write p c :: es => (p, c) :: writesOf es

/-! ### Template substitution and the scaffold manifest -/

/-- The placeholder token `{{K}}` of a key. -/
def token (k : Text) : Text := strL "\x7b\x7b" ++ k ++ strL "\x7d\x7d"

/-- Model of the replacement loop of `copy_template` /`add_command`:
`content.replace('{{KEY}}', value)` for each table entry in order. -/
def applyRepl (repl : List (Text × Text)) (t : Text) : Text :=
  repl.foldl (fun acc kv => replaceAll (token kv.1) kv.2 acc) t

/-- One manifest entry of the scaffolder: template name, destination path
relative to the project root, and the content filter applied before writing
(`id` models `modify_content=None`). -/
structure Entry where
  tname : Text
  dest : FPath
  filt : Text → Text

/-- Model of `copy_template` on one entry: a missing template reports `false`
and performs no event; otherwise the substituted, filtered content is written
after the destination's parent directory is created. -/
def copyTemplateRes (tmpl : Text → Option Text) (repl : List (Text × Text))
    (e : Entry) : List Ev × Bool :=
  match tmpl e.tname with
  | none => ([], false)
  | some content =>
    ([.mkdirp e.dest.dropLast, .write e.dest (e.filt (applyRepl repl content))], true)

/-- The manifest loop of `scaffold_project`: every entry is processed in
order, collecting the events and the per-entry boolean results. -/
def runEntries (tmpl : Text → Option Text) (repl : List (Text × Text)) :
    List Entry → List Ev × List Bool
  | [] => ([], [])
  | e :: es =>
    let r := copyTemplateRes tmpl repl e
    let rest := runEntries tmpl repl es
    (r.1 ++ rest.1, r.2 :: rest.2)

/-- The replacement table built by `scaffold_project`, in insertion order. -/
def replacements (name year : Text) : List (Text × Text) :=
  [(strL "PROJECT_NAME", name),
   (strL "MODULE_NAME", strL "github.com/yourusername/" ++ name),
   (strL "YEAR", year)]

/-- The directories created by `create_directory_structure`, in order. -/
def structureDirs (includeDatabase includeTemplates : Bool) : List FPath :=
  [[strL "cmd"],
   [strL "internal", strL "config"],
   [strL ".github", strL "workflows"],
   [strL "docs", strL "dev-sessions"]] ++
  (if includeDatabase then [[strL "internal", strL "database"]] else []) ++
  (if includeTemplates then [[strL "internal", strL "templates"]] else [])

/-- The fixed `copy_template` call sequence of `scaffold_project`, with the
four database-gated content filters. -/
def manifest (name : Text) (includeDatabase includeTemplates : Bool) : List Entry :=
  [⟨strL "main.go", [strL "main.go"], id⟩,
   ⟨strL "go.mod.template", [strL "go.mod"],
     if includeDatabase then id else remove_sqlite_from_gomod⟩,
   ⟨strL "Makefile.template", [strL "Makefile"],
     if includeDatabase then id else remove_cgo_from_makefile⟩,
   ⟨strL "gitignore.template", [strL ".gitignore"], id⟩,
   ⟨strL "config.yaml.example", [name ++ strL ".yaml.example"], id⟩,
   ⟨strL "root.go.template", [strL "cmd", strL "root.go"],
     if includeDatabase then id else remove_database_from_root⟩,
   ⟨strL "version.go.template", [strL "cmd", strL "version.go"], id⟩,
   ⟨strL "constants.go.template", [strL "cmd", strL "constants.go"], id⟩,
   ⟨strL "config.go.template", [strL "internal", strL "config", strL "config.go"],
     if includeDatabase then id else remove_database_from_config⟩,
   ⟨strL "ci.yml.template", [strL ".github", strL "workflows", strL "ci.yml"], id⟩,
   ⟨strL "release.yml.template", [strL ".github", strL "workflows", strL "release.yml"], id⟩,
   ⟨strL "rolling-release.yml.template",
     [strL ".github", strL "workflows", strL "rolling-release.yml"], id⟩] ++
  (if includeDatabase then
    [⟨strL "database.go.template", [strL "internal", strL "database", strL "database.go"], id⟩,
     ⟨strL "migrations.go.template", [strL "internal", strL "database", strL "migrations.go"], id⟩,
     ⟨strL "schema.sql.template", [strL "internal", strL "database", strL "schema.sql"], id⟩]
   else []) ++
  (if includeTemplates then
    [⟨strL "init.go.template", [strL "cmd", strL "init.go"], id⟩,
     ⟨strL "templates.go.template", [strL "internal", strL "templates", strL "templates.go"], id⟩,
     ⟨strL "default.md.template", [strL "internal", strL "templates", strL "default.md"], id⟩]
   else [])

/-- The project-relative event trace of one scaffold run: the directory
structure is created first, then the manifest entries are copied in order. -/
def scaffoldTrace (name year : Text) (tmpl : Text → Option Text)
    (includeDatabase includeTemplates : Bool) : List Ev :=
  (structureDirs includeDatabase includeTemplates).map Ev.mkdirp ++
    (runEntries tmpl (replacements name year) (manifest name includeDatabase includeTemplates)).1

/-- The per-entry boolean results of the manifest loop of one scaffold run. -/
def scaffoldResults (name year : Text) (tmpl : Text → Option Text)
    (includeDatabase includeTemplates : Bool) : List Bool :=
  (runEntries tmpl (replacements name year) (manifest name includeDatabase includeTemplates)).2

/-- Rebase a project-relative event under the project path. -/
def rebase (base : FPath) : Ev → Ev
  | .mkdirp p => .mkdirp (base ++ p)
  | .write p c => .write (base ++ p) c

/-- Model of `scaffold_project`: if the destination directory already exists
the run aborts with exit code 1, the state unchanged and no event emitted;
otherwise the project directory is created and the whole trace runs.  The
result is (exit code if fatal, final state, events performed). -/
def scaffoldRun (name year : Text) (outputDir : FPath) (tmpl : Text → Option Text)
    (includeDatabase includeTemplates : Bool) (fs : FS) :
    Option Nat × FS × List Ev :=
  if pathExists fs (outputDir ++ [name]) then (some 1, fs, [])
  else
    (none,
     applyEvs fs (Ev.mkdirp (outputDir ++ [name]) ::
       (scaffoldTrace name year tmpl includeDatabase includeTemplates).map
         (rebase (outputDir ++ [name]))),
     Ev.mkdirp (outputDir ++ [name]) ::
       (scaffoldTrace name year tmpl includeDatabase includeTemplates).map
         (rebase (outputDir ++ [name])))

/-! ### `add_command.py` -/

/-- ASCII model of Python `str.capitalize()`: first character upper-cased,
the rest lower-cased. -/
def capitalizeT : Text → Text
  | [] => []
  | c :: t => c.toUpper :: t.map Char.toLower

/-- Model of `add_command`: missing `cmd/` directory, pre-existing command
file, and missing template each abort with exit code 1 before any write;
otherwise the substituted template is written to `cmd/<name>.go`. -/
def addCommand (cname : Text) (projectDir : FPath) (tmpl : Option Text)
    (fs : FS) : Option Nat × FS :=
  if !pathExists fs (projectDir ++ [strL "cmd"]) then (some 1, fs)
  else if pathExists fs (projectDir ++ [strL "cmd"] ++ [cname ++ strL ".go"]) then (some 1, fs)
  else
    match tmpl with
    | none => (some 1, fs)
    | some content =>
      (none,
       writeFile fs (projectDir ++ [strL "cmd"] ++ [cname ++ strL ".go"])
         (applyRepl [(strL "COMMAND_NAME", cname),
                     (strL "COMMAND_NAME_CAPITALIZED", capitalizeT cname)] content))

/-! ### Claim-specific auxiliary definitions -/

/-- Modelled from the claim's wording for C7: one step of a fold carrying the
single boolean "currently inside a comment block to skip" state and the kept
lines.  A trigger line sets the state and is omitted; while the state holds a
blank line or a line not starting with `#` terminates the state and is kept,
any other line is omitted; outside the state lines are kept. -/
def cgoSpecStep (st : Bool × List Text) (line : Text) : Bool × List Text :=
  if cgoTrigger line then (true, st.2)
  else if st.1 then
    if isBlank line || !startsHash line then (false, st.2 ++ [line]) else (true, st.2)
  else (false, st.2 ++ [line])

/-- Modelled from the claim's wording for C7: remove every occurrence of
`CGO_ENABLED=1 ` (concatenate the text's non-occurrence chunks), then fold the
skip-state machine over the lines. -/
def remove_cgo_spec (content : Text) : Text :=
  joinLines
    ((List.foldl cgoSpecStep (false, [])
      (splitLines ((splitOnPat (strL "CGO_ENABLED=1 ") content).flatten))).2)

/-- The project-relative destinations of the three database templates. -/
def dbPaths : List FPath :=
  [[strL "internal", strL "database", strL "database.go"],
   [strL "internal", strL "database", strL "migrations.go"],
   [strL "internal", strL "database", strL "schema.sql"]]

/-- The conditionally created database directory. -/
def dbDir : FPath := [strL "internal", strL "database"]

/-- The content filter a database-disabled run applies to a destination: one
of the four source filters on the four affected files, the identity elsewhere. -/
def dbFileFilter (p : FPath) : Text → Text :=
  if p = [strL "go.mod"] then remove_sqlite_from_gomod
  else if p = [strL "Makefile"] then remove_cgo_from_makefile
  else if p = [strL "cmd", strL "root.go"] then remove_database_from_root
  else if p = [strL "internal", strL "config", strL "config.go"] then remove_database_from_config
  else id

/-- The expected effect of disabling the database flag on one written file of
the database-enabled run: files under the database directory disappear, the
four affected files are filtered, everything else is untouched. -/
def dbStrip (pc : FPath × Text) : Option (FPath × Text) :=
  if pc.1 ∈ dbPaths then none else some (pc.1, dbFileFilter pc.1 pc.2)

/-- An occurrence of `p` as a contiguous substring of `t`. -/
def Occurs (p t : Text) : Prop := ∃ a b, t = a ++ p ++ b

/-- A key with no brace character, as the upper-snake-case placeholder keys
have. -/
def braceFree (k : Text) : Bool := k.all (fun c => !(c == '{' || c == '}'))

example : remove_sqlite_from_gomod (strL "a\nx go-sqlite3 y\nb") = strL "a\nb" := by decide

example :
    remove_cgo_from_makefile (strL "# SQLite requires CGO\n# more\nbuild:\n\tCGO_ENABLED=1 go build") =
      strL "build:\n\tgo build" := by decide

example :
    cgoScan [strL "# SQLite requires CGO", strL "# x", strL "", strL "# y"] false =
      [strL "", strL "# y"] := by decide

/-! ### Basic lemmas about traces and the manifest loop -/

theorem runEntries_snd (tmpl : Text → Option Text) (repl : List (Text × Text)) :
    ∀ es : List Entry, (runEntries tmpl repl es).2 = es.map (fun e => (tmpl e.tname).isSome)
  | [] => rfl
  | e :: es => by
    cases h : tmpl e.tname <;>
      simp [runEntries, copyTemplateRes, h, runEntries_snd tmpl repl es]

theorem runEntries_append (tmpl : Text → Option Text) (repl : List (Text × Text))
    (es₁ es₂ : List Entry) :
    runEntries tmpl repl (es₁ ++ es₂) =
      ((runEntries tmpl repl es₁).1 ++ (runEntries tmpl repl es₂).1,
       (runEntries tmpl repl es₁).2 ++ (runEntries tmpl repl es₂).2) := by
  induction es₁ with
  | nil => simp [runEntries]
  | cons e es ih => simp [runEntries, ih]

theorem checkEvs_append (es₁ es₂ : List Ev) :
    ∀ fs : FS, checkEvs fs (es₁ ++ es₂) = (checkEvs fs es₁ && checkEvs (applyEvs fs es₁) es₂) := by
  induction es₁ with
  | nil => intro fs; simp [checkEvs, applyEvs]
  | cons e es ih =>
    intro fs
    cases e <;> simp [checkEvs, applyEvs, applyEv, ih, Bool.and_assoc]

theorem checkEvs_mkdirp_cons (fs : FS) (p : FPath) (es : List Ev) :
    checkEvs fs (Ev.mkdirp p :: es) = checkEvs (mkdirP fs p) es := rfl

theorem self_mem_mkdirP_dirs (fs : FS) (p : FPath) : p ∈ (mkdirP fs p).dirs := by
  simp [mkdirP, List.mem_inits]

theorem checkEvs_mkdirps : ∀ (ps : List FPath) (fs : FS), checkEvs fs (ps.map Ev.mkdirp) = true
  | [], _ => rfl
  | p :: ps, fs => by
    simp [checkEvs, checkEvs_mkdirps ps]

theorem checkEvs_mkdirp_map (g : FPath → FPath) :
    ∀ (ps : List FPath) (fs : FS), checkEvs fs (ps.map (fun p => Ev.mkdirp (g p))) = true
  | [], _ => rfl
  | p :: ps, fs => by
    simp [checkEvs, checkEvs_mkdirp_map g ps]

theorem checkEvs_runEntries (tmpl : Text → Option Text) (repl : List (Text × Text)) :
    ∀ (es : List Entry) (fs : FS), checkEvs fs ((runEntries tmpl repl es).1) = true
  | [], _ => rfl
  | e :: es, fs => by
    cases h : tmpl e.tname with
    | none => simp [runEntries, copyTemplateRes, h, checkEvs_runEntries tmpl repl es]
    | some c =>
      simp only [runEntries, copyTemplateRes, h, List.cons_append, List.nil_append, checkEvs]
      rw [decide_eq_true (self_mem_mkdirP_dirs fs e.dest.dropLast)]
      simp [checkEvs_runEntries tmpl repl es]

theorem checkEvs_runEntries_rebase (b : FPath) (tmpl : Text → Option Text)
    (repl : List (Text × Text)) :
    ∀ es : List Entry, (∀ e ∈ es, e.dest ≠ []) →
      ∀ fs : FS, checkEvs fs (((runEntries tmpl repl es).1).map (rebase b)) = true
  | [], _, _ => rfl
  | e :: es, h, fs => by
    have hd : e.dest ≠ [] := h e (List.mem_cons_self e es)
    have hrest : ∀ e' ∈ es, e'.dest ≠ [] := fun e' he' => h e' (List.mem_cons_of_mem e he')
    cases htm : tmpl e.tname with
    | none =>
      simp [runEntries, copyTemplateRes, htm, checkEvs_runEntries_rebase b tmpl repl es hrest]
    | some c =>
      simp only [runEntries, copyTemplateRes, htm, List.cons_append, List.nil_append,
        List.map_cons, rebase, checkEvs]
      have hmem : (b ++ e.dest).dropLast ∈ (mkdirP fs (b ++ e.dest.dropLast)).dirs := by
        rw [List.dropLast_append_of_ne_nil b hd]
        exact self_mem_mkdirP_dirs fs (b ++ e.dest.dropLast)
      rw [decide_eq_true hmem]
      simp [checkEvs_runEntries_rebase b tmpl repl es hrest]

theorem manifest_dest_ne_nil (name : Text) (db tm : Bool) :
    ∀ e ∈ manifest name db tm, e.dest ≠ [] := by
  cases db <;> cases tm <;> simp [manifest]

/-! ### C1 -/

/-- C1: when the destination directory `output_dir/project_name` already
exists, `scaffold_project` reports the error and exits with code 1 before any
filesystem write: the state is returned unchanged and the event trace is
empty. -/
theorem scaffold_existing_dest_aborts (name year : Text) (outputDir : FPath)
    (tmpl : Text → Option Text) (db tm : Bool) (fs : FS)
    (h : pathExists fs (outputDir ++ [name]) = true) :
    scaffoldRun name year outputDir tmpl db tm fs = (some 1, fs, []) := by
  simp [scaffoldRun, h]

/-- Witness for C1 at a concrete state that already holds the destination. -/
theorem scaffold_existing_dest_aborts_witness :
    scaffoldRun (strL "p") (strL "2025") [] (fun _ => none) true false
        ⟨[[strL "p"]], []⟩ = (some 1, ⟨[[strL "p"]], []⟩, []) :=
  scaffold_existing_dest_aborts (strL "p") (strL "2025") [] (fun _ => none) true false
    ⟨[[strL "p"]], []⟩ (by decide)

/-! ### C5 -/

/-- Counterexample to C5 as stated: in `scaffold_project` a missing template
does not terminate the process with exit code 1 — a run whose templates are
all missing still completes normally (exit code 0). -/
theorem missing_template_not_fatal_counterexample :
    (scaffoldRun (strL "p") (strL "2025") [] (fun _ => none) true false ⟨[], []⟩).1 ≠ some 1 := by
  decide

/-- C5 amended: the fail-fast exit-1 behaviour on a missing template holds
for `add_command` (whose single template is checked before any write). -/
theorem addCommand_missing_template_exits_one (cname : Text) (projectDir : FPath) (fs : FS)
    (h1 : pathExists fs (projectDir ++ [strL "cmd"]) = true)
    (h2 : pathExists fs (projectDir ++ [strL "cmd", cname ++ strL ".go"]) = false) :
    addCommand cname projectDir none fs = (some 1, fs) := by
  simp [addCommand, h1, h2]

/-- Witness for the amended C5 at a concrete project state. -/
theorem addCommand_missing_template_exits_one_witness :
    addCommand (strL "fetch") [] none ⟨[[strL "cmd"]], []⟩ = (some 1, ⟨[[strL "cmd"]], []⟩) :=
  addCommand_missing_template_exits_one (strL "fetch") [] ⟨[[strL "cmd"]], []⟩
    (by decide) (by decide)

/-! ### C6 -/

/-- C6: a manifest entry whose template is missing yields result `False` while
every entry of the manifest is still processed in order — the result list is
exactly the per-entry presence map, and the loop's events and results over a
split manifest are those of the two halves concatenated (no early abort). -/
theorem scaffold_missing_template_nonfatal (name year : Text) (tmpl : Text → Option Text)
    (db tm : Bool) :
    scaffoldResults name year tmpl db tm =
        (manifest name db tm).map (fun e => (tmpl e.tname).isSome) ∧
      ∀ (repl : List (Text × Text)) (es₁ es₂ : List Entry),
        runEntries tmpl repl (es₁ ++ es₂) =
          ((runEntries tmpl repl es₁).1 ++ (runEntries tmpl repl es₂).1,
           (runEntries tmpl repl es₁).2 ++ (runEntries tmpl repl es₂).2) :=
  ⟨runEntries_snd tmpl (replacements name year) (manifest name db tm),
   fun repl es₁ es₂ => runEntries_append tmpl repl es₁ es₂⟩

/-! ### C8 -/

/-- C8: in every scaffold run, for both feature-flag settings and any template
availability, every file write happens into a directory that exists at that
moment: the project-relative trace and the full rebased run trace both pass
the parent-exists-at-write check from any starting state. -/
theorem scaffold_dirs_before_writes (name year : Text) (outputDir : FPath)
    (tmpl : Text → Option Text) (db tm : Bool) (fs : FS) :
    checkEvs fs (scaffoldTrace name year tmpl db tm) = true ∧
      checkEvs fs ((scaffoldRun name year outputDir tmpl db tm fs).2.2) = true := by
  constructor
  · unfold scaffoldTrace
    rw [checkEvs_append, checkEvs_mkdirps,
      checkEvs_runEntries tmpl (replacements name year) (manifest name db tm)]
    rfl
  · unfold scaffoldRun
    cases h : pathExists fs (outputDir ++ [name])
    · simp only [Bool.false_eq_true, if_false]
      unfold scaffoldTrace
      rw [checkEvs_mkdirp_cons, List.map_append, List.map_map, checkEvs_append]
      have h1 : checkEvs (mkdirP fs (outputDir ++ [name]))
          (List.map (rebase (outputDir ++ [name]) ∘ Ev.mkdirp) (structureDirs db tm)) = true :=
        checkEvs_mkdirp_map (fun p => (outputDir ++ [name]) ++ p) (structureDirs db tm)
          (mkdirP fs (outputDir ++ [name]))
      rw [h1,
        checkEvs_runEntries_rebase (outputDir ++ [name]) tmpl (replacements name year)
          (manifest name db tm) (manifest_dest_ne_nil name db tm)]
      rfl
    · simp [checkEvs]

/-! ### C9 -/

/-- C9: when `cmd/<command-name>.go` already exists, `add_command` exits with
code 1 and the state is unchanged, whatever the template holds (the check
precedes the template read, and the existing file is never overwritten). -/
theorem addCommand_existing_command_aborts (cname : Text) (projectDir : FPath)
    (tmpl : Option Text) (fs : FS)
    (h1 : pathExists fs (projectDir ++ [strL "cmd"]) = true)
    (h2 : pathExists fs (projectDir ++ [strL "cmd", cname ++ strL ".go"]) = true) :
    addCommand cname projectDir tmpl fs = (some 1, fs) := by
  simp [addCommand, h1, h2]

/-- Witness for C9 at a concrete state already holding `cmd/run.go`. -/
theorem addCommand_existing_command_aborts_witness :
    addCommand (strL "run") [] (some (strL "package cmd"))
        ⟨[[strL "cmd"]], [([strL "cmd", strL "run.go"], strL "old")]⟩ =
      (some 1, ⟨[[strL "cmd"]], [([strL "cmd", strL "run.go"], strL "old")]⟩) :=
  addCommand_existing_command_aborts (strL "run") [] (some (strL "package cmd"))
    ⟨[[strL "cmd"]], [([strL "cmd", strL "run.go"], strL "old")]⟩ (by decide) (by decide)

/-! ### Equation lemmas for the replacement scan -/

theorem isPre_iff {p t : Text} : isPre p t = true ↔ p <+: t :=
  List.isPrefixOf_iff_prefix

theorem isEmpty_false_of_ne_nil {l : Text} (h : l ≠ []) : l.isEmpty = false :=
  List.isEmpty_eq_false.mpr h

theorem replAux_skip (p v : Text) :
    ∀ (n : Nat) (t : Text), replAux p v n t = replAux p v 0 (t.drop n)
  | 0, t => by simp
  | n + 1, [] => by simp [replAux]
  | n + 1, c :: t => by
    simp [replAux, replAux_skip p v n t]

theorem replaceAll_nil (p v : Text) : replaceAll p v [] = [] := by
  unfold replaceAll; split <;> rfl

theorem replaceAll_pos {p : Text} (v : Text) {t : Text} (hp : p ≠ [])
    (h : isPre p t = true) :
    replaceAll p v t = v ++ replaceAll p v (t.drop p.length) := by
  obtain ⟨a, p', rfl⟩ : ∃ a p', p = a :: p' := by
    cases p with
    | nil => exact absurd rfl hp
    | cons a p' => exact ⟨a, p', rfl⟩
  cases t with
  | nil =>
    exact absurd (List.prefix_nil.mp (isPre_iff.mp h)) hp
  | cons c t' =>
    show replAux (a :: p') v 0 (c :: t') = v ++ replaceAll (a :: p') v (List.drop p'.length t')
    rw [replAux]
    simp only [h, if_true]
    rw [replAux_skip]
    rfl

theorem replaceAll_neg {p : Text} (v : Text) {c : Char} {t : Text} (hp : p ≠ [])
    (h : isPre p (c :: t) = false) :
    replaceAll p v (c :: t) = c :: replaceAll p v t := by
  unfold replaceAll
  rw [isEmpty_false_of_ne_nil hp]
  show replAux p v 0 (c :: t) = c :: replAux p v 0 t
  rw [replAux]
  simp [h]

theorem splitAux_skip (p : Text) :
    ∀ (n : Nat) (t : Text), splitAux p n t = splitAux p 0 (t.drop n)
  | 0, t => by simp
  | n + 1, [] => by simp [splitAux]
  | n + 1, c :: t => by
    simp [splitAux, splitAux_skip p n t]

theorem splitOnPat_nil (p : Text) : splitOnPat p [] = [[]] := by
  unfold splitOnPat; split <;> rfl

theorem splitOnPat_pos {p t : Text} (hp : p ≠ []) (h : isPre p t = true) :
    splitOnPat p t = [] :: splitOnPat p (t.drop p.length) := by
  obtain ⟨a, p', rfl⟩ : ∃ a p', p = a :: p' := by
    cases p with
    | nil => exact absurd rfl hp
    | cons a p' => exact ⟨a, p', rfl⟩
  cases t with
  | nil =>
    exact absurd (List.prefix_nil.mp (isPre_iff.mp h)) hp
  | cons c t' =>
    show splitAux (a :: p') 0 (c :: t') = [] :: splitOnPat (a :: p') (List.drop p'.length t')
    rw [splitAux]
    simp only [h, if_true]
    rw [splitAux_skip]
    rfl

theorem splitOnPat_neg {p : Text} {c : Char} {t l : Text} {ls : List Text} (hp : p ≠ [])
    (h : isPre p (c :: t) = false) (hsp : splitOnPat p t = l :: ls) :
    splitOnPat p (c :: t) = (c :: l) :: ls := by
  unfold splitOnPat at hsp ⊢
  rw [isEmpty_false_of_ne_nil hp] at hsp ⊢
  simp only [Bool.false_eq_true, if_false] at hsp ⊢
  rw [splitAux]
  simp only [h, Bool.false_eq_true, if_false]
  rw [hsp]

theorem splitAux_ne_nil (p : Text) : ∀ (n : Nat) (t : Text), splitAux p n t ≠ []
  | _ + 1, [] => by simp [splitAux]
  | n + 1, c :: t => by simpa [splitAux] using splitAux_ne_nil p n t
  | 0, [] => by simp [splitAux]
  | 0, c :: t => by
    rw [splitAux]
    split
    · simp
    · split <;> simp

theorem splitOnPat_ne_nil (p t : Text) : splitOnPat p t ≠ [] := by
  unfold splitOnPat
  split
  · simp
  · exact splitAux_ne_nil p 0 t

theorem splitOnPat_cons (p t : Text) :
    ∃ l ls, splitOnPat p t = l :: ls := by
  cases hsp : splitOnPat p t with
  | nil => exact absurd hsp (splitOnPat_ne_nil p t)
  | cons l ls => exact ⟨l, ls, rfl⟩

theorem joinWith_cons (sep x : Text) {ls : List Text} (h : ls ≠ []) :
    joinWith sep (x :: ls) = x ++ sep ++ joinWith sep ls := by
  cases ls with
  | nil => exact absurd rfl h
  | cons y ys => rfl

/-! ### The scan as chunks: replacement inserts the value at each occurrence,
and the chunks rebuild the original around the pattern -/

theorem replaceAll_eq_joinWith (p v t : Text) :
    replaceAll p v t = joinWith v (splitOnPat p t) := by
  by_cases hp : p = []
  · subst hp
    simp [replaceAll, splitOnPat, joinWith]
  · suffices H : ∀ (n : Nat) (t : Text), t.length ≤ n →
        replaceAll p v t = joinWith v (splitOnPat p t) from H t.length t le_rfl
    intro n
    induction n with
    | zero =>
      intro t ht
      cases t with
      | nil => rw [replaceAll_nil, splitOnPat_nil]; rfl
      | cons c t' => simp at ht
    | succ n ih =>
      intro t ht
      cases t with
      | nil => rw [replaceAll_nil, splitOnPat_nil]; rfl
      | cons c t' =>
        have hplen : 0 < p.length := List.length_pos.mpr hp
        cases h : isPre p (c :: t') with
        | true =>
          have hlen : ((c :: t').drop p.length).length ≤ n := by
            simp only [List.length_drop, List.length_cons]
            simp only [List.length_cons] at ht
            omega
          rw [replaceAll_pos v hp h, splitOnPat_pos hp h,
            joinWith_cons v [] (splitOnPat_ne_nil p _), ih _ hlen]
          simp
        | false =>
          have hlen : t'.length ≤ n := by
            simp only [List.length_cons] at ht
            omega
          obtain ⟨l, ls, hsp⟩ := splitOnPat_cons p t'
          rw [replaceAll_neg v hp h, splitOnPat_neg hp h hsp]
          have ih' := ih t' hlen
          rw [hsp] at ih'
          cases ls with
          | nil =>
            show c :: replaceAll p v t' = joinWith v [c :: l]
            rw [ih']
            rfl
          | cons y ys =>
            rw [joinWith_cons v (c :: l) (by simp), joinWith_cons v l (by simp)] at *
            rw [ih']
            simp

theorem joinWith_splitOnPat (p t : Text) : joinWith p (splitOnPat p t) = t := by
  by_cases hp : p = []
  · subst hp
    simp [splitOnPat, joinWith]
  · suffices H : ∀ (n : Nat) (t : Text), t.length ≤ n →
        joinWith p (splitOnPat p t) = t from H t.length t le_rfl
    intro n
    induction n with
    | zero =>
      intro t ht
      cases t with
      | nil => rw [splitOnPat_nil]; rfl
      | cons c t' => simp at ht
    | succ n ih =>
      intro t ht
      cases t with
      | nil => rw [splitOnPat_nil]; rfl
      | cons c t' =>
        have hplen : 0 < p.length := List.length_pos.mpr hp
        cases h : isPre p (c :: t') with
        | true =>
          have hlen : ((c :: t').drop p.length).length ≤ n := by
            simp only [List.length_drop, List.length_cons]
            simp only [List.length_cons] at ht
            omega
          rw [splitOnPat_pos hp h, joinWith_cons p [] (splitOnPat_ne_nil p _), ih _ hlen]
          obtain ⟨s, hs⟩ := isPre_iff.mp h
          rw [← hs, List.drop_left]
          rfl
        | false =>
          have hlen : t'.length ≤ n := by
            simp only [List.length_cons] at ht
            omega
          obtain ⟨l, ls, hsp⟩ := splitOnPat_cons p t'
          rw [splitOnPat_neg hp h hsp]
          have ih' := ih t' hlen
          rw [hsp] at ih'
          cases ls with
          | nil =>
            show joinWith p [c :: l] = c :: t'
            have : l = t' := ih'
            rw [← this]
            rfl
          | cons y ys =>
            rw [joinWith_cons p (c :: l) (by simp)]
            rw [joinWith_cons p l (by simp)] at ih'
            simp only [List.cons_append, List.append_assoc] at *
            rw [ih']

/-! ### Chunk structure: heads are prefixes, chunks are infixes and are free
of the pattern -/

theorem splitOnPat_head_prefix (p : Text) :
    ∀ (t l : Text) (ls : List Text), splitOnPat p t = l :: ls → l <+: t := by
  by_cases hp : p = []
  · intro t l ls hsp
    subst hp
    simp only [splitOnPat, List.isEmpty_nil, if_true] at hsp
    cases hsp
    exact List.prefix_refl t
  · suffices H : ∀ (n : Nat) (t : Text), t.length ≤ n →
        ∀ (l : Text) (ls : List Text), splitOnPat p t = l :: ls → l <+: t from
      fun t => H t.length t le_rfl
    intro n
    induction n with
    | zero =>
      intro t ht l ls hsp
      cases t with
      | nil => rw [splitOnPat_nil] at hsp; cases hsp; exact List.nil_prefix
      | cons c t' => simp at ht
    | succ n ih =>
      intro t ht l ls hsp
      cases t with
      | nil => rw [splitOnPat_nil] at hsp; cases hsp; exact List.nil_prefix
      | cons c t' =>
        have hplen : 0 < p.length := List.length_pos.mpr hp
        cases h : isPre p (c :: t') with
        | true =>
          rw [splitOnPat_pos hp h] at hsp; cases hsp; exact List.nil_prefix
        | false =>
          obtain ⟨l₀, ls₀, hsp₀⟩ := splitOnPat_cons p t'
          rw [splitOnPat_neg hp h hsp₀] at hsp
          cases hsp
          have hlen : t'.length ≤ n := by simp only [List.length_cons] at ht; omega
          exact List.cons_prefix_cons.mpr ⟨rfl, ih t' hlen l₀ _ hsp₀⟩

theorem mem_splitOnPat_within (p : Text) :
    ∀ (t ch : Text), ch ∈ splitOnPat p t → ch <:+: t := by
  by_cases hp : p = []
  · intro t ch hch
    subst hp
    simp only [splitOnPat, List.isEmpty_nil, if_true, List.mem_singleton] at hch
    subst hch
    exact List.infix_refl _
  · suffices H : ∀ (n : Nat) (t : Text), t.length ≤ n →
        ∀ ch : Text, ch ∈ splitOnPat p t → ch <:+: t from
      fun t => H t.length t le_rfl
    intro n
    induction n with
    | zero =>
      intro t ht ch hch
      cases t with
      | nil =>
        rw [splitOnPat_nil] at hch
        simp only [List.mem_singleton] at hch
        subst hch
        exact List.nil_infix
      | cons c t' => simp at ht
    | succ n ih =>
      intro t ht ch hch
      cases t with
      | nil =>
        rw [splitOnPat_nil] at hch
        simp only [List.mem_singleton] at hch
        subst hch
        exact List.nil_infix
      | cons c t' =>
        have hplen : 0 < p.length := List.length_pos.mpr hp
        cases h : isPre p (c :: t') with
        | true =>
          rw [splitOnPat_pos hp h] at hch
          rcases List.mem_cons.mp hch with rfl | hch'
          · exact List.nil_infix
          · have hlen : ((c :: t').drop p.length).length ≤ n := by
              simp only [List.length_drop, List.length_cons]
              simp only [List.length_cons] at ht
              omega
            exact (ih _ hlen ch hch').trans (List.drop_suffix _ _).isInfix
        | false =>
          obtain ⟨l₀, ls₀, hsp₀⟩ := splitOnPat_cons p t'
          rw [splitOnPat_neg hp h hsp₀] at hch
          have hlen : t'.length ≤ n := by simp only [List.length_cons] at ht; omega
          rcases List.mem_cons.mp hch with rfl | hch'
          · exact (List.cons_prefix_cons.mpr
              ⟨rfl, splitOnPat_head_prefix p t' l₀ ls₀ hsp₀⟩).isInfix
          · have : ch ∈ splitOnPat p t' := by rw [hsp₀]; exact List.mem_cons_of_mem l₀ hch'
            exact List.infix_cons (ih t' hlen ch this)

theorem occurs_nil {p : Text} (h : Occurs p []) : p = [] := by
  obtain ⟨a, b, hab⟩ := h
  have := hab.symm
  simp only [List.append_eq_nil] at this
  exact this.1.2

theorem not_occurs_of_mem_splitOnPat {p : Text} (hp : p ≠ []) :
    ∀ (t ch : Text), ch ∈ splitOnPat p t → ¬ Occurs p ch := by
  suffices H : ∀ (n : Nat) (t : Text), t.length ≤ n →
      ∀ ch : Text, ch ∈ splitOnPat p t → ¬ Occurs p ch from
    fun t => H t.length t le_rfl
  intro n
  induction n with
  | zero =>
    intro t ht ch hch hocc
    cases t with
    | nil =>
      rw [splitOnPat_nil] at hch
      simp only [List.mem_singleton] at hch
      subst hch
      exact hp (occurs_nil hocc)
    | cons c t' => simp at ht
  | succ n ih =>
    intro t ht ch hch hocc
    cases t with
    | nil =>
      rw [splitOnPat_nil] at hch
      simp only [List.mem_singleton] at hch
      subst hch
      exact hp (occurs_nil hocc)
    | cons c t' =>
      have hplen : 0 < p.length := List.length_pos.mpr hp
      cases h : isPre p (c :: t') with
      | true =>
        rw [splitOnPat_pos hp h] at hch
        rcases List.mem_cons.mp hch with rfl | hch'
        · exact hp (occurs_nil hocc)
        · have hlen : ((c :: t').drop p.length).length ≤ n := by
            simp only [List.length_drop, List.length_cons]
            simp only [List.length_cons] at ht
            omega
          exact ih _ hlen ch hch' hocc
      | false =>
        obtain ⟨l₀, ls₀, hsp₀⟩ := splitOnPat_cons p t'
        rw [splitOnPat_neg hp h hsp₀] at hch
        have hlen : t'.length ≤ n := by simp only [List.length_cons] at ht; omega
        rcases List.mem_cons.mp hch with rfl | hch'
        · obtain ⟨a, b, hab⟩ := hocc
          cases a with
          | nil =>
            obtain ⟨ph, p', rfl⟩ : ∃ ph p', p = ph :: p' := by
              cases p with
              | nil => exact absurd rfl hp
              | cons ph p' => exact ⟨ph, p', rfl⟩
            simp only [List.nil_append, List.cons_append] at hab
            obtain ⟨hc, hl⟩ := List.cons.injEq .. ▸ hab
            obtain ⟨u, hu⟩ := splitOnPat_head_prefix _ t' l₀ ls₀ hsp₀
            have hpre : isPre (ph :: p') (c :: t') = true := by
              rw [isPre_iff, hc]
              refine List.cons_prefix_cons.mpr ⟨rfl, ?_⟩
              refine ⟨b ++ u, ?_⟩
              rw [← hu, hl]
              simp
            rw [hpre] at h
            cases h
          | cons a₀ a' =>
            simp only [List.cons_append] at hab
            obtain ⟨hc, hl⟩ := List.cons.injEq .. ▸ hab
            have : l₀ ∈ splitOnPat p t' := by rw [hsp₀]; exact List.mem_cons_self l₀ ls₀
            exact ih t' hlen l₀ this ⟨a', b, hl⟩
        · have : ch ∈ splitOnPat p t' := by rw [hsp₀]; exact List.mem_cons_of_mem l₀ hch'
          exact ih t' hlen ch this hocc

/-! ### Occurrences across concatenation -/

theorem occurs_append {p x y : Text} (h : Occurs p (x ++ y)) :
    Occurs p x ∨ Occurs p y ∨
      ∃ p₁ p₂, p = p₁ ++ p₂ ∧ p₁ ≠ [] ∧ p₂ ≠ [] ∧ p₁ <:+ x ∧ p₂ <+: y := by
  obtain ⟨a, b, hab⟩ := h
  rw [List.append_assoc] at hab
  rcases List.append_eq_append_iff.mp hab with ⟨w, hw1, hw2⟩ | ⟨w, hw1, hw2⟩
  · exact Or.inr (Or.inl ⟨w, b, by rw [hw2, List.append_assoc]⟩)
  · rcases List.append_eq_append_iff.mp hw2.symm with ⟨u, hu1, hu2⟩ | ⟨u, hu1, hu2⟩
    · cases hwn : w with
      | nil =>
        subst hwn
        simp only [List.nil_append] at hu1
        exact Or.inr (Or.inl ⟨[], b, by rw [hu2, ← hu1]; simp⟩)
      | cons w₀ w' =>
        cases hun : u with
        | nil =>
          subst hun
          rw [List.append_nil] at hu1
          exact Or.inl ⟨a, [], by rw [hw1, ← hu1]; simp⟩
        | cons u₀ u' =>
          refine Or.inr (Or.inr ⟨w, u, hu1, by simp [hwn], by simp [hun], ⟨a, hw1.symm⟩,
            ⟨b, hu2.symm⟩⟩)
    · exact Or.inl ⟨a, u, by rw [hw1, hu1, List.append_assoc]⟩

theorem occurs_of_within {q ch t : Text} (ho : Occurs q ch) (hi : ch <:+: t) : Occurs q t := by
  obtain ⟨a, b, hab⟩ := ho
  obtain ⟨u, w, huw⟩ := hi
  exact ⟨u ++ a, b ++ w, by rw [← huw, hab]; simp⟩

theorem not_occurs_joinWith {q v : Text} (hq : q ≠ []) (hv : v ≠ [])
    (hd : ∀ c ∈ v, c ∉ q) :
    ∀ chunks : List Text, (∀ ch ∈ chunks, ¬ Occurs q ch) → ¬ Occurs q (joinWith v chunks)
  | [], hch => fun h => hq (occurs_nil h)
  | [x], hch => fun h => hch x (List.mem_singleton.mpr rfl) h
  | x :: y :: ys, hch => by
    intro h
    rw [joinWith_cons v x (by simp), List.append_assoc] at h
    obtain ⟨qh, q', hqe⟩ : ∃ qh q', q = qh :: q' := by
      cases q with
      | nil => exact absurd rfl hq
      | cons qh q' => exact ⟨qh, q', rfl⟩
    obtain ⟨vh, v', hve⟩ : ∃ vh v', v = vh :: v' := by
      cases v with
      | nil => exact absurd rfl hv
      | cons vh v' => exact ⟨vh, v', rfl⟩
    rcases occurs_append h with hx | hrest | ⟨p₁, p₂, hpe, hp₁, hp₂, hsuf, hpre⟩
    · exact hch x (List.mem_cons_self x _) hx
    · rcases occurs_append hrest with hv' | hys | ⟨p₁, p₂, hpe, hp₁, hp₂, hsuf, hpre⟩
      · obtain ⟨a, b, hab⟩ := hv'
        have hm : qh ∈ v := by rw [hab, hqe]; simp
        exact hd qh hm (by rw [hqe]; exact List.mem_cons_self qh q')
      · exact not_occurs_joinWith hq hv hd (y :: ys)
          (fun ch hm => hch ch (List.mem_cons_of_mem x hm)) hys
      · obtain ⟨c, p₁', hp₁e⟩ : ∃ c p₁', p₁ = c :: p₁' := by
          cases p₁ with
          | nil => exact absurd rfl hp₁
          | cons c p₁' => exact ⟨c, p₁', rfl⟩
        obtain ⟨u, hu⟩ := hsuf
        have hcv : c ∈ v := by rw [← hu, hp₁e]; simp
        have hcq : c ∈ q := by rw [hpe, hp₁e]; simp
        exact hd c hcv hcq
    · obtain ⟨c, p₂', hp₂e⟩ : ∃ c p₂', p₂ = c :: p₂' := by
        cases p₂ with
        | nil => exact absurd rfl hp₂
        | cons c p₂' => exact ⟨c, p₂', rfl⟩
      obtain ⟨u, hu⟩ := hpre
      rw [hp₂e, hve, List.cons_append, List.cons_append] at hu
      have hc : c = vh := (List.cons.injEq .. ▸ hu).1
      have hcv : c ∈ v := by rw [hve, hc]; exact List.mem_cons_self vh v'
      have hcq : c ∈ q := by rw [hpe, hp₂e]; simp
      exact hd c hcv hcq

/-- After `replaceAll p v t` no occurrence of `p` remains, provided the value
is nonempty and shares no character with the pattern. -/
theorem not_occurs_replaceAll {p v : Text} (hp : p ≠ []) (hv : v ≠ [])
    (hd : ∀ c ∈ v, c ∉ p) (t : Text) : ¬ Occurs p (replaceAll p v t) := by
  rw [replaceAll_eq_joinWith]
  exact not_occurs_joinWith hp hv hd _
    (fun ch hch => not_occurs_of_mem_splitOnPat hp t ch hch)

/-- `replaceAll p v` cannot create an occurrence of a pattern `q` that was
absent, provided the value is nonempty and shares no character with `q`. -/
theorem not_occurs_replaceAll_pres {p q v t : Text} (hq : q ≠ []) (hv : v ≠ [])
    (hd : ∀ c ∈ v, c ∉ q) (ht : ¬ Occurs q t) : ¬ Occurs q (replaceAll p v t) := by
  rw [replaceAll_eq_joinWith]
  exact not_occurs_joinWith hq hv hd _
    (fun ch hch h => ht (occurs_of_within h (mem_splitOnPat_within p t ch hch)))

/-! ### C3: residual placeholders after substitution -/

theorem token_ne_nil (k : Text) : token k ≠ [] := by simp [token, strL]

theorem not_occurs_applyRepl_pres {q : Text} (hq : q ≠ []) :
    ∀ (table : List (Text × Text)) (s : Text),
      (∀ kv ∈ table, kv.2 ≠ [] ∧ ∀ c ∈ kv.2, c ∉ q) →
      ¬ Occurs q s → ¬ Occurs q (applyRepl table s)
  | [], _, _, hs => hs
  | (k, v) :: rest, s, hT, hs => by
    show ¬ Occurs q (applyRepl rest (replaceAll (token k) v s))
    refine not_occurs_applyRepl_pres hq rest _
      (fun kv hkv => hT kv (List.mem_cons_of_mem _ hkv)) ?_
    have h0 := hT (k, v) (List.mem_cons_self _ _)
    exact not_occurs_replaceAll_pres hq h0.1 h0.2 hs

theorem applyRepl_no_residual_aux :
    ∀ (table : List (Text × Text)) (t : Text),
      (∀ kv ∈ table, kv.2 ≠ []) →
      (∀ kv ∈ table, ∀ c ∈ kv.2, ∀ kv' ∈ table, c ∉ token kv'.1) →
      ∀ kv ∈ table, ¬ Occurs (token kv.1) (applyRepl table t)
  | [], _, _, _ => by intro kv hkv; cases hkv
  | kv₀ :: rest, t, hv, hd => by
    intro kv hkv
    show ¬ Occurs (token kv.1) (applyRepl rest (replaceAll (token kv₀.1) kv₀.2 t))
    rcases List.mem_cons.mp hkv with rfl | hkv'
    · refine not_occurs_applyRepl_pres (token_ne_nil _) rest _
        (fun kv' hkv' => ⟨hv kv' (List.mem_cons_of_mem _ hkv'),
          fun c hc => hd kv' (List.mem_cons_of_mem _ hkv') c hc kv
            (List.mem_cons_self _ _)⟩) ?_
      exact not_occurs_replaceAll (token_ne_nil _) (hv kv (List.mem_cons_self _ _))
        (fun c hc => hd kv (List.mem_cons_self _ _) c hc kv (List.mem_cons_self _ _)) t
    · exact applyRepl_no_residual_aux rest (replaceAll (token kv₀.1) kv₀.2 t)
        (fun kv' h => hv kv' (List.mem_cons_of_mem _ h))
        (fun kv' h c hc kv'' h'' => hd kv' (List.mem_cons_of_mem _ h) c hc kv''
          (List.mem_cons_of_mem _ h''))
        kv hkv'

/-- Counterexample to C3 as stated: with the replacement table
`K ↦ "{{K}}"` the substituted text still contains the token `{{K}}`. -/
theorem substitution_residual_counterexample :
    Occurs (token (strL "K")) (applyRepl [(strL "K", token (strL "K"))] (token (strL "K"))) :=
  ⟨[], [], by decide⟩

/-- C3 amended: provided every replacement value is nonempty and shares no
character with any placeholder token of the table, the substitution step
leaves zero occurrences of `{{K}}` for every key `K` of the table; moreover
each single replacement step puts the value exactly at the scanned
occurrences of its token (the text splits into chunks around the occurrences,
rebuilt by the pattern, with the value substituted in its place). -/
theorem substitution_no_residual (table : List (Text × Text)) (t : Text)
    (hv : ∀ kv ∈ table, kv.2 ≠ [])
    (hd : ∀ kv ∈ table, ∀ c ∈ kv.2, ∀ kv' ∈ table, c ∉ token kv'.1) :
    (∀ kv ∈ table, ¬ Occurs (token kv.1) (applyRepl table t)) ∧
      ∀ p v s : Text, replaceAll p v s = joinWith v (splitOnPat p s) ∧
        joinWith p (splitOnPat p s) = s :=
  ⟨applyRepl_no_residual_aux table t hv hd,
   fun p v s => ⟨replaceAll_eq_joinWith p v s, joinWith_splitOnPat p s⟩⟩

/-- Witness for the amended C3 on a concrete table and template. -/
theorem substitution_no_residual_witness :
    (∀ kv ∈ [(strL "A", strL "1"), (strL "B", strL "2")],
        ¬ Occurs (token kv.1)
          (applyRepl [(strL "A", strL "1"), (strL "B", strL "2")] (strL "x{{A}}y{{B}}z"))) ∧
      ∀ p v s : Text, replaceAll p v s = joinWith v (splitOnPat p s) ∧
        joinWith p (splitOnPat p s) = s :=
  substitution_no_residual [(strL "A", strL "1"), (strL "B", strL "2")]
    (strL "x{{A}}y{{B}}z") (by decide) (by decide)

/-! ### C7: the comment-block filter matches its specification -/

theorem joinWith_nil_flatten : ∀ ls : List Text, joinWith [] ls = ls.flatten
  | [] => rfl
  | [x] => by simp [joinWith]
  | x :: y :: ys => by
    simp [joinWith, joinWith_nil_flatten (y :: ys)]

theorem cgoSpec_foldl :
    ∀ (lines : List Text) (st : Bool) (acc : List Text),
      (List.foldl cgoSpecStep (st, acc) lines).2 = acc ++ cgoScan lines st
  | [], st, acc => by simp [cgoScan]
  | line :: rest, st, acc => by
    cases htr : cgoTrigger line with
    | true =>
      simp only [List.foldl_cons, cgoSpecStep, htr, if_true]
      rw [cgoSpec_foldl rest true acc]
      simp [cgoScan, htr]
    | false =>
      cases st with
      | true =>
        cases hstop : (isBlank line || !startsHash line) with
        | true =>
          simp only [List.foldl_cons, cgoSpecStep, htr, hstop, Bool.false_eq_true, if_false,
            if_true]
          rw [cgoSpec_foldl rest false (acc ++ [line])]
          simp [cgoScan, htr, cgoStop, hstop]
        | false =>
          simp only [List.foldl_cons, cgoSpecStep, htr, hstop, Bool.false_eq_true, if_false,
            if_true]
          rw [cgoSpec_foldl rest true acc]
          simp [cgoScan, htr, cgoStop, hstop]
      | false =>
        simp only [List.foldl_cons, cgoSpecStep, htr, Bool.false_eq_true, if_false]
        rw [cgoSpec_foldl rest false (acc ++ [line])]
        simp [cgoScan, htr, cgoStop]

/-- C7: `remove_cgo_from_makefile` agrees, on every input text, with the
claim's description: remove every occurrence of `CGO_ENABLED=1 `, then scan
the lines with a single boolean skip state that is set by the SQLite-comment
trigger, omits lines while set, and is terminated exactly by the first blank
line or line not starting with `#`, that line being kept. -/
theorem remove_cgo_matches_spec (content : Text) :
    remove_cgo_from_makefile content = remove_cgo_spec content := by
  unfold remove_cgo_from_makefile remove_cgo_spec
  rw [replaceAll_eq_joinWith, joinWith_nil_flatten, cgoSpec_foldl]
  rfl

/-! ### C10: the pure line filters are idempotent -/

theorem splitLines_ne_nil : ∀ t : Text, splitLines t ≠ []
  | [] => by simp [splitLines]
  | c :: t => by
    rw [splitLines]
    split
    · simp
    · split <;> simp

theorem splitLines_cons_of_ne {c : Char} {t l : Text} {ls : List Text}
    (hc : (c == '\n') = false) (hsp : splitLines t = l :: ls) :
    splitLines (c :: t) = (c :: l) :: ls := by
  rw [splitLines, hc]
  simp only [Bool.false_eq_true, if_false]
  rw [hsp]

theorem splitLines_cons_exists (t : Text) : ∃ l ls, splitLines t = l :: ls := by
  cases hsp : splitLines t with
  | nil => exact absurd hsp (splitLines_ne_nil t)
  | cons l ls => exact ⟨l, ls, rfl⟩

theorem splitLines_no_newline : ∀ (t : Text), ∀ l ∈ splitLines t, '\n' ∉ l
  | [], l, hl => by
    simp only [splitLines, List.mem_singleton] at hl
    subst hl
    simp
  | c :: t, l, hl => by
    by_cases hc : c = '\n'
    · subst hc
      rw [splitLines] at hl
      simp only [beq_self_eq_true, if_true] at hl
      rcases List.mem_cons.mp hl with rfl | hl'
      · simp
      · exact splitLines_no_newline t l hl'
    · obtain ⟨l₀, ls₀, hsp₀⟩ := splitLines_cons_exists t
      rw [splitLines_cons_of_ne (beq_eq_false_iff_ne.mpr hc) hsp₀] at hl
      rcases List.mem_cons.mp hl with rfl | hl'
      · intro hmem
        rcases List.mem_cons.mp hmem with h | h
        · exact hc h.symm
        · exact splitLines_no_newline t l₀ (by rw [hsp₀]; exact List.mem_cons_self _ _) h
      · exact splitLines_no_newline t l (by rw [hsp₀]; exact List.mem_cons_of_mem _ hl')

theorem splitLines_of_no_newline : ∀ {x : Text}, '\n' ∉ x → splitLines x = [x]
  | [], _ => rfl
  | c :: x, h => by
    have hc : (c == '\n') = false := by
      refine beq_eq_false_iff_ne.mpr fun hce => h ?_
      rw [hce]
      exact List.mem_cons_self _ _
    rw [splitLines_cons_of_ne hc
      (splitLines_of_no_newline (fun hm => h (List.mem_cons_of_mem _ hm)))]

theorem splitLines_append_newline :
    ∀ {x : Text} (rest : Text), '\n' ∉ x →
      splitLines (x ++ '\n' :: rest) = x :: splitLines rest
  | [], rest, _ => by
    rw [List.nil_append, splitLines]
    simp
  | c :: x, rest, h => by
    have hc : (c == '\n') = false := by
      refine beq_eq_false_iff_ne.mpr fun hce => h ?_
      rw [hce]
      exact List.mem_cons_self _ _
    rw [List.cons_append,
      splitLines_cons_of_ne hc
        (splitLines_append_newline rest (fun hm => h (List.mem_cons_of_mem _ hm)))]

theorem splitLines_joinLines :
    ∀ ls : List Text, ls ≠ [] → (∀ l ∈ ls, '\n' ∉ l) → splitLines (joinLines ls) = ls
  | [], h, _ => absurd rfl h
  | [x], _, hnn => by
    show splitLines x = [x]
    exact splitLines_of_no_newline (hnn x (List.mem_singleton.mpr rfl))
  | x :: y :: ys, _, hnn => by
    show splitLines (x ++ strL "\n" ++ joinWith (strL "\n") (y :: ys)) = x :: y :: ys
    rw [List.append_assoc]
    have hx : '\n' ∉ x := hnn x (List.mem_cons_self _ _)
    rw [show strL "\n" ++ joinWith (strL "\n") (y :: ys) =
        '\n' :: joinWith (strL "\n") (y :: ys) from rfl]
    rw [splitLines_append_newline _ hx]
    rw [show (joinWith (strL "\n") (y :: ys) : Text) = joinLines (y :: ys) from rfl]
    rw [splitLines_joinLines (y :: ys) (by simp)
      (fun l hl => hnn l (List.mem_cons_of_mem _ hl))]

theorem lineFilter_idem (keep : Text → Bool) (hkeep : keep [] = true) (t : Text) :
    joinLines ((splitLines (joinLines ((splitLines t).filter keep))).filter keep) =
        joinLines ((splitLines t).filter keep) ∧
      splitLines (joinLines ((splitLines t).filter keep)) =
        (if ((splitLines t).filter keep).isEmpty then [[]]
         else (splitLines t).filter keep) := by
  cases hks : (splitLines t).filter keep with
  | nil =>
    constructor
    · show joinLines (List.filter keep (splitLines (joinLines []))) = joinLines []
      show joinLines (List.filter keep [[]]) = joinLines []
      simp [List.filter, hkeep, joinLines, joinWith]
    · rfl
  | cons k ks =>
    have hnn : ∀ l ∈ k :: ks, '\n' ∉ l := by
      rw [← hks]
      exact fun l hl => splitLines_no_newline t l (List.mem_of_mem_filter hl)
    have hsj : splitLines (joinLines (k :: ks)) = k :: ks :=
      splitLines_joinLines _ (by simp) hnn
    constructor
    · rw [hsj, ← hks, List.filter_filter]
      simp
    · rw [hsj]
      simp

/-- C10: each of the three pure line-dropping content filters is idempotent,
and the lines of its output are exactly the input's lines kept by its literal
patterns, in their original order (the single empty line when every line is
dropped, since joining no lines yields the empty text). -/
theorem line_filters_idempotent (t : Text) :
    (remove_sqlite_from_gomod (remove_sqlite_from_gomod t) = remove_sqlite_from_gomod t ∧
      splitLines (remove_sqlite_from_gomod t) =
        (if ((splitLines t).filter gomodKeep).isEmpty then [[]]
         else (splitLines t).filter gomodKeep)) ∧
    (remove_database_from_root (remove_database_from_root t) = remove_database_from_root t ∧
      splitLines (remove_database_from_root t) =
        (if ((splitLines t).filter (fun l => !rootDrop l)).isEmpty then [[]]
         else (splitLines t).filter (fun l => !rootDrop l))) ∧
    (remove_database_from_config (remove_database_from_config t) =
        remove_database_from_config t ∧
      splitLines (remove_database_from_config t) =
        (if ((splitLines t).filter configKeep).isEmpty then [[]]
         else (splitLines t).filter configKeep)) :=
  ⟨lineFilter_idem gomodKeep (by decide) t,
   lineFilter_idem (fun l => !rootDrop l) (by decide) t,
   lineFilter_idem configKeep (by decide) t⟩

/-! ### C2: the frame effect of disabling the database flag -/

theorem writesOf_append : ∀ es₁ es₂ : List Ev, writesOf (es₁ ++ es₂) = writesOf es₁ ++ writesOf es₂
  | [], _ => rfl
  | .mkdirp p :: es, es₂ => by simp [writesOf, writesOf_append es es₂]
  | .write p c :: es, es₂ => by simp [writesOf, writesOf_append es es₂]

theorem writesOf_mkdirps : ∀ ps : List FPath, writesOf (ps.map Ev.mkdirp) = []
  | [] => rfl
  | p :: ps => by simp [writesOf, writesOf_mkdirps ps]

theorem writesOf_runEntries_cons (tmpl : Text → Option Text) (repl : List (Text × Text))
    (e : Entry) (es : List Entry) :
    writesOf ((runEntries tmpl repl (e :: es)).1) =
      writesOf ((copyTemplateRes tmpl repl e).1) ++ writesOf ((runEntries tmpl repl es).1) := by
  simp [runEntries, writesOf_append]

theorem writesOf_runEntries_nil (tmpl : Text → Option Text) (repl : List (Text × Text)) :
    writesOf ((runEntries tmpl repl []).1) = [] := rfl

theorem dbStrip_entry_some (tmpl : Text → Option Text) (repl : List (Text × Text))
    (n : Text) (d : FPath) (f : Text → Text)
    (h : ∀ c : Text, dbStrip (d, c) = some (d, f c)) :
    List.filterMap dbStrip (writesOf ((copyTemplateRes tmpl repl ⟨n, d, id⟩).1)) =
      writesOf ((copyTemplateRes tmpl repl ⟨n, d, f⟩).1) := by
  cases htm : tmpl n <;> simp [copyTemplateRes, htm, writesOf, h]

theorem dbStrip_entry_none (tmpl : Text → Option Text) (repl : List (Text × Text))
    (n : Text) (d : FPath) (g : Text → Text)
    (h : ∀ c : Text, dbStrip (d, c) = none) :
    List.filterMap dbStrip (writesOf ((copyTemplateRes tmpl repl ⟨n, d, g⟩).1)) = [] := by
  cases htm : tmpl n <;> simp [copyTemplateRes, htm, writesOf, h]

theorem yaml_dbStrip (name : Text) (c : Text) :
    dbStrip ([name ++ strL ".yaml.example"], c) = some ([name ++ strL ".yaml.example"], c) := by
  have hlen : ∀ s : Text, (name ++ strL ".yaml.example") = s → s.length = name.length + 13 := by
    intro s hs
    rw [← hs, List.length_append]
    rfl
  have h1 : name ++ strL ".yaml.example" ≠ strL "go.mod" := by
    intro h
    have := hlen _ h
    have h6 : (strL "go.mod").length = 6 := rfl
    omega
  have h2 : name ++ strL ".yaml.example" ≠ strL "Makefile" := by
    intro h
    have := hlen _ h
    have h8 : (strL "Makefile").length = 8 := rfl
    omega
  have hmem : ¬ ([name ++ strL ".yaml.example"] ∈ dbPaths) := by
    simp [dbPaths]
  simp [dbStrip, dbFileFilter, hmem, h1, h2]

/-- C2: with project name, year, template set and the template-support flag
fixed, the database-disabled run's written files are obtained from the
database-enabled run's exactly by dropping the files under the database
directory and applying the four content filters to the four affected
destinations, every other file byte-for-byte identical; and the created
directory list differs exactly by the database directory. -/
theorem database_flag_frame (name year : Text) (tmpl : Text → Option Text) (tm : Bool) :
    writesOf (scaffoldTrace name year tmpl false tm) =
        (writesOf (scaffoldTrace name year tmpl true tm)).filterMap dbStrip ∧
      structureDirs false tm = (structureDirs true tm).filter (fun d => decide (d ≠ dbDir)) := by
  constructor
  · unfold scaffoldTrace
    rw [writesOf_append, writesOf_append, writesOf_mkdirps, writesOf_mkdirps,
      List.nil_append, List.nil_append]
    cases tm with
    | false =>
      simp only [manifest]
      simp only [Bool.false_eq_true, if_false, if_true, List.append_nil, List.nil_append,
        List.cons_append, List.append_assoc]
      simp only [writesOf_runEntries_cons, writesOf_runEntries_nil, List.filterMap_append,
        List.append_nil]
      rw [dbStrip_entry_some tmpl _ _ [strL "main.go"] id (fun c => rfl),
        dbStrip_entry_some tmpl _ _ [strL "go.mod"] remove_sqlite_from_gomod (fun c => rfl),
        dbStrip_entry_some tmpl _ _ [strL "Makefile"] remove_cgo_from_makefile (fun c => rfl),
        dbStrip_entry_some tmpl _ _ [strL ".gitignore"] id (fun c => rfl),
        dbStrip_entry_some tmpl _ _ [name ++ strL ".yaml.example"] id (yaml_dbStrip name),
        dbStrip_entry_some tmpl _ _ [strL "cmd", strL "root.go"] remove_database_from_root
          (fun c => rfl),
        dbStrip_entry_some tmpl _ _ [strL "cmd", strL "version.go"] id (fun c => rfl),
        dbStrip_entry_some tmpl _ _ [strL "cmd", strL "constants.go"] id (fun c => rfl),
        dbStrip_entry_some tmpl _ _ [strL "internal", strL "config", strL "config.go"]
          remove_database_from_config (fun c => rfl),
        dbStrip_entry_some tmpl _ _ [strL ".github", strL "workflows", strL "ci.yml"] id
          (fun c => rfl),
        dbStrip_entry_some tmpl _ _ [strL ".github", strL "workflows", strL "release.yml"] id
          (fun c => rfl),
        dbStrip_entry_some tmpl _ _
          [strL ".github", strL "workflows", strL "rolling-release.yml"] id (fun c => rfl),
        dbStrip_entry_none tmpl _ _ [strL "internal", strL "database", strL "database.go"] id
          (fun c => rfl),
        dbStrip_entry_none tmpl _ _ [strL "internal", strL "database", strL "migrations.go"] id
          (fun c => rfl),
        dbStrip_entry_none tmpl _ _ [strL "internal", strL "database", strL "schema.sql"] id
          (fun c => rfl)]
      simp
    | true =>
      simp only [manifest]
      simp only [Bool.false_eq_true, if_false, if_true, List.append_nil, List.nil_append,
        List.cons_append, List.append_assoc]
      simp only [writesOf_runEntries_cons, writesOf_runEntries_nil, List.filterMap_append,
        List.append_nil]
      rw [dbStrip_entry_some tmpl _ _ [strL "main.go"] id (fun c => rfl),
        dbStrip_entry_some tmpl _ _ [strL "go.mod"] remove_sqlite_from_gomod (fun c => rfl),
        dbStrip_entry_some tmpl _ _ [strL "Makefile"] remove_cgo_from_makefile (fun c => rfl),
        dbStrip_entry_some tmpl _ _ [strL ".gitignore"] id (fun c => rfl),
        dbStrip_entry_some tmpl _ _ [name ++ strL ".yaml.example"] id (yaml_dbStrip name),
        dbStrip_entry_some tmpl _ _ [strL "cmd", strL "root.go"] remove_database_from_root
          (fun c => rfl),
        dbStrip_entry_some tmpl _ _ [strL "cmd", strL "version.go"] id (fun c => rfl),
        dbStrip_entry_some tmpl _ _ [strL "cmd", strL "constants.go"] id (fun c => rfl),
        dbStrip_entry_some tmpl _ _ [strL "internal", strL "config", strL "config.go"]
          remove_database_from_config (fun c => rfl),
        dbStrip_entry_some tmpl _ _ [strL ".github", strL "workflows", strL "ci.yml"] id
          (fun c => rfl),
        dbStrip_entry_some tmpl _ _ [strL ".github", strL "workflows", strL "release.yml"] id
          (fun c => rfl),
        dbStrip_entry_some tmpl _ _
          [strL ".github", strL "workflows", strL "rolling-release.yml"] id (fun c => rfl),
        dbStrip_entry_none tmpl _ _ [strL "internal", strL "database", strL "database.go"] id
          (fun c => rfl),
        dbStrip_entry_none tmpl _ _ [strL "internal", strL "database", strL "migrations.go"] id
          (fun c => rfl),
        dbStrip_entry_none tmpl _ _ [strL "internal", strL "database", strL "schema.sql"] id
          (fun c => rfl),
        dbStrip_entry_some tmpl _ _ [strL "cmd", strL "init.go"] id (fun c => rfl),
        dbStrip_entry_some tmpl _ _ [strL "internal", strL "templates", strL "templates.go"] id
          (fun c => rfl),
        dbStrip_entry_some tmpl _ _ [strL "internal", strL "templates", strL "default.md"] id
          (fun c => rfl)]
      simp
  · cases tm <;> decide

/-! ### C4: tokens of distinct brace-free keys cannot overlap -/

theorem braceFree_spec {k : Text} (h : braceFree k = true) :
    ∀ c ∈ k, c ≠ '{' ∧ c ≠ '}' := by
  intro c hc
  have := List.all_eq_true.mp h c hc
  constructor <;> intro he <;> subst he <;> simp at this

theorem token_eq (k : Text) : token k = '{' :: '{' :: (k ++ ['}', '}']) := rfl

theorem brace_append_cancel :
    ∀ {k₁ k₂ : Text}, (∀ c ∈ k₁, c ≠ '{' ∧ c ≠ '}') → (∀ c ∈ k₂, c ≠ '{' ∧ c ≠ '}') →
      k₁ ++ ['}', '}'] <+: k₂ ++ ['}', '}'] → k₁ = k₂
  | [], [], _, _, _ => rfl
  | [], c :: k₂', _, h₂, hpre => by
    exfalso
    rw [List.nil_append, List.cons_append] at hpre
    have := (List.cons_prefix_cons.mp hpre).1
    exact (h₂ c (List.mem_cons_self _ _)).2 this.symm
  | c :: k₁', [], h₁, _, hpre => by
    exfalso
    rw [List.nil_append, List.cons_append] at hpre
    have := (List.cons_prefix_cons.mp hpre).1
    exact (h₁ c (List.mem_cons_self _ _)).2 this
  | c₁ :: k₁', c₂ :: k₂', h₁, h₂, hpre => by
    rw [List.cons_append, List.cons_append] at hpre
    obtain ⟨hc, hrest⟩ := List.cons_prefix_cons.mp hpre
    rw [hc, brace_append_cancel (fun c hc' => h₁ c (List.mem_cons_of_mem _ hc'))
      (fun c hc' => h₂ c (List.mem_cons_of_mem _ hc')) hrest]

theorem token_prefix_token {k₁ k₂ : Text} (hb₁ : braceFree k₁ = true)
    (hb₂ : braceFree k₂ = true) (h : token k₁ <+: token k₂) : k₁ = k₂ := by
  rw [token_eq, token_eq] at h
  have h1 := (List.cons_prefix_cons.mp h).2
  have h2 := (List.cons_prefix_cons.mp h1).2
  exact brace_append_cancel (braceFree_spec hb₁) (braceFree_spec hb₂) h2

theorem token_occurs_token {k₁ k₂ : Text} (hb₁ : braceFree k₁ = true)
    (hb₂ : braceFree k₂ = true) (h : Occurs (token k₁) (token k₂)) : k₁ = k₂ := by
  obtain ⟨a, b, hab⟩ := h
  rw [token_eq k₂] at hab
  cases a with
  | nil =>
    refine token_prefix_token hb₁ hb₂ ⟨b, ?_⟩
    rw [token_eq k₂, hab]
    simp
  | cons x a' =>
    simp only [List.cons_append, List.cons.injEq] at hab
    obtain ⟨hx, hab'⟩ := hab
    cases a' with
    | nil =>
      exfalso
      simp only [List.nil_append] at hab'
      rw [token_eq k₁] at hab'
      simp only [List.cons_append, List.cons.injEq, true_and] at hab'
      cases k₂ with
      | nil =>
        simp only [List.nil_append, List.cons.injEq] at hab'
        exact absurd hab'.1 (by decide)
      | cons c₂ k₂' =>
        simp only [List.cons_append, List.cons.injEq] at hab'
        exact (braceFree_spec hb₂ c₂ (List.mem_cons_self _ _)).1 hab'.1
    | cons y a'' =>
      exfalso
      simp only [List.cons_append, List.cons.injEq] at hab'
      obtain ⟨hy, hab''⟩ := hab'
      have hmem : '{' ∈ k₂ ++ ['}', '}'] := by
        rw [hab'']
        rw [token_eq k₁]
        simp
      rcases List.mem_append.mp hmem with hm | hm
      · exact (braceFree_spec hb₂ '{' hm).1 rfl
      · simp at hm

theorem token_suffix_prefix {k₁ k₂ : Text} (hb₁ : braceFree k₁ = true)
    (hb₂ : braceFree k₂ = true) {s : Text} (hsuf : s <:+ token k₁)
    (hpre : s <+: token k₂) (hne : s ≠ []) : s = token k₁ := by
  rw [token_eq k₁] at hsuf ⊢
  rcases List.suffix_cons_iff.mp hsuf with he | hsuf1
  · exact he
  rcases List.suffix_cons_iff.mp hsuf1 with he | hsuf2
  · exfalso
    subst he
    rw [token_eq k₂] at hpre
    have h1 := (List.cons_prefix_cons.mp hpre).2
    cases k₁ with
    | nil =>
      simp only [List.nil_append] at h1
      exact absurd (List.cons_prefix_cons.mp h1).1 (by decide)
    | cons c₁ k₁' =>
      rw [List.cons_append] at h1
      exact (braceFree_spec hb₁ c₁ (List.mem_cons_self _ _)).1
        (List.cons_prefix_cons.mp h1).1
  · exfalso
    obtain ⟨sh, s', rfl⟩ : ∃ sh s', s = sh :: s' := by
      cases s with
      | nil => exact absurd rfl hne
      | cons sh s' => exact ⟨sh, s', rfl⟩
    rw [token_eq k₂] at hpre
    have hsh : sh = '{' := (List.cons_prefix_cons.mp hpre).1
    have hmem : sh ∈ k₁ ++ ['}', '}'] := hsuf2.subset (List.mem_cons_self _ _)
    rcases List.mem_append.mp hmem with hm | hm
    · exact (braceFree_spec hb₁ sh hm).1 hsh
    · rw [hsh] at hm
      simp at hm

/-! ### C4: commuting two replacement passes -/

theorem no_match_in_value {q v : Text} (hq : q ≠ []) (hdv : ∀ c ∈ v, c ∉ q) :
    ∀ (s y : Text), s <:+ v → s ≠ [] → isPre q (s ++ y) = false := by
  intro s y hs hne
  cases hiq : isPre q (s ++ y) with
  | false => rfl
  | true =>
    exfalso
    obtain ⟨sh, s', rfl⟩ : ∃ sh s', s = sh :: s' := by
      cases s with
      | nil => exact absurd rfl hne
      | cons sh s' => exact ⟨sh, s', rfl⟩
    obtain ⟨qh, q', rfl⟩ : ∃ qh q', q = qh :: q' := by
      cases q with
      | nil => exact absurd rfl hq
      | cons qh q' => exact ⟨qh, q', rfl⟩
    have hpre := isPre_iff.mp hiq
    rw [List.cons_append] at hpre
    have hqh : qh = sh := (List.cons_prefix_cons.mp hpre).1
    have hshv : sh ∈ v := hs.subset (List.mem_cons_self _ _)
    exact hdv sh hshv (hqh ▸ List.mem_cons_self _ _)

theorem no_match_on_token_suffix {k₁ k₂ : Text} (hb₁ : braceFree k₁ = true)
    (hb₂ : braceFree k₂ = true) (hne : k₁ ≠ k₂) :
    ∀ (s y : Text), s <:+ token k₁ → s ≠ [] → isPre (token k₂) (s ++ y) = false := by
  intro s y hsuf hne'
  cases hiq : isPre (token k₂) (s ++ y) with
  | false => rfl
  | true =>
    exfalso
    obtain ⟨r, hr⟩ := isPre_iff.mp hiq
    rcases List.append_eq_append_iff.mp hr.symm with ⟨u, hu1, hu2⟩ | ⟨u, hu1, hu2⟩
    · -- token k₂ = s ++ u : s is a prefix of token k₂
      have hspre : s <+: token k₂ := ⟨u, hu1.symm⟩
      have hs1 : s = token k₁ := token_suffix_prefix hb₁ hb₂ hsuf hspre hne'
      subst hs1
      exact hne (token_prefix_token hb₁ hb₂ hspre)
    · -- s = token k₂ ++ u : the token k₂ occurs inside token k₁
      obtain ⟨w, hw⟩ := hsuf
      refine hne (token_occurs_token hb₂ hb₁ ⟨w, u, ?_⟩).symm
      rw [← hw, hu1]
      simp

theorem replaceAll_append_of_no_match {q w : Text} (hq : q ≠ []) :
    ∀ (u y : Text), (∀ s : Text, s <:+ u → s ≠ [] → isPre q (s ++ y) = false) →
      replaceAll q w (u ++ y) = u ++ replaceAll q w y
  | [], y, _ => by simp
  | c :: u, y, h => by
    have h0 : isPre q ((c :: u) ++ y) = false := h (c :: u) (List.suffix_refl _) (by simp)
    rw [List.cons_append] at h0 ⊢
    rw [replaceAll_neg w hq h0,
      replaceAll_append_of_no_match hq u y
        (fun s hs hne => h s (hs.trans (List.suffix_cons c u)) hne)]
    rfl

theorem isPre_replaceAll_pres {p v : Text} (hv : v ≠ []) :
    ∀ (n : Nat) (s x : Text), s.length ≤ n → (∀ c ∈ v, c ∉ x) →
      isPre x (replaceAll p v s) = true → isPre x s = true := by
  by_cases hp : p = []
  · subst hp
    intro n s x _ _ h
    simpa [replaceAll] using h
  · intro n
    induction n with
    | zero =>
      intro s x hs _ h
      cases s with
      | nil =>
        rw [replaceAll_nil] at h
        have : x = [] := List.prefix_nil.mp (isPre_iff.mp h)
        subst this
        exact isPre_iff.mpr List.nil_prefix
      | cons c s' => simp at hs
    | succ n ih =>
      intro s x hs hd h
      cases s with
      | nil =>
        rw [replaceAll_nil] at h
        have : x = [] := List.prefix_nil.mp (isPre_iff.mp h)
        subst this
        exact isPre_iff.mpr List.nil_prefix
      | cons c s' =>
        have hplen : 0 < p.length := List.length_pos.mpr hp
        cases hm : isPre p (c :: s') with
        | true =>
          rw [replaceAll_pos v hp hm] at h
          cases x with
          | nil => exact isPre_iff.mpr List.nil_prefix
          | cons a x' =>
            exfalso
            obtain ⟨vh, v', rfl⟩ : ∃ vh v', v = vh :: v' := by
              cases v with
              | nil => exact absurd rfl hv
              | cons vh v' => exact ⟨vh, v', rfl⟩
            have hpre := isPre_iff.mp h
            rw [List.cons_append] at hpre
            have ha : a = vh := (List.cons_prefix_cons.mp hpre).1
            exact hd vh (List.mem_cons_self _ _) (ha ▸ List.mem_cons_self a x')
        | false =>
          rw [replaceAll_neg v hp hm] at h
          cases x with
          | nil => exact isPre_iff.mpr List.nil_prefix
          | cons a x' =>
            obtain ⟨ha, hx'⟩ := List.cons_prefix_cons.mp (isPre_iff.mp h)
            have hlen : s'.length ≤ n := by simp only [List.length_cons] at hs; omega
            have := ih s' x' hlen (fun ch hch hmem => hd ch hch (List.mem_cons_of_mem _ hmem))
              (isPre_iff.mpr hx')
            exact isPre_iff.mpr (List.cons_prefix_cons.mpr ⟨ha, isPre_iff.mp this⟩)

theorem replaceAll_comm {k₁ k₂ v₁ v₂ : Text}
    (hb₁ : braceFree k₁ = true) (hb₂ : braceFree k₂ = true) (hne : k₁ ≠ k₂)
    (hv₁ : v₁ ≠ []) (hv₂ : v₂ ≠ [])
    (hd₁₂ : ∀ c ∈ v₁, c ∉ token k₂) (hd₂₁ : ∀ c ∈ v₂, c ∉ token k₁) :
    ∀ t : Text, replaceAll (token k₂) v₂ (replaceAll (token k₁) v₁ t) =
      replaceAll (token k₁) v₁ (replaceAll (token k₂) v₂ t) := by
  have hp4 : token k₁ ≠ [] := token_ne_nil k₁
  have hq4 : token k₂ ≠ [] := token_ne_nil k₂
  suffices H : ∀ (n : Nat) (t : Text), t.length ≤ n →
      replaceAll (token k₂) v₂ (replaceAll (token k₁) v₁ t) =
        replaceAll (token k₁) v₁ (replaceAll (token k₂) v₂ t) from
    fun t => H t.length t le_rfl
  intro n
  induction n with
  | zero =>
    intro t ht
    cases t with
    | nil => simp [replaceAll_nil]
    | cons c t' => simp at ht
  | succ n ih =>
    intro t ht
    cases t with
    | nil => simp [replaceAll_nil]
    | cons c t' =>
      cases h1 : isPre (token k₁) (c :: t') with
      | true =>
        cases h2 : isPre (token k₂) (c :: t') with
        | true =>
          exfalso
          rcases List.prefix_or_prefix_of_prefix (isPre_iff.mp h1) (isPre_iff.mp h2) with h | h
          · exact hne (token_prefix_token hb₁ hb₂ h)
          · exact hne (token_prefix_token hb₂ hb₁ h).symm
        | false =>
          obtain ⟨s, hs⟩ := isPre_iff.mp h1
          have hdrop : (c :: t').drop (token k₁).length = s := by rw [← hs, List.drop_left]
          have hslen : s.length ≤ n := by
            have hls := congrArg List.length hs
            have hl : 0 < (token k₁).length := List.length_pos.mpr hp4
            simp only [List.length_append, List.length_cons] at hls
            simp only [List.length_cons] at ht
            omega
          rw [replaceAll_pos v₁ hp4 h1, hdrop]
          rw [replaceAll_append_of_no_match hq4 v₁ (replaceAll (token k₁) v₁ s)
            (fun s' hs' hne' => no_match_in_value hq4 hd₁₂ s' _ hs' hne')]
          rw [← hs]
          rw [replaceAll_append_of_no_match hq4 (token k₁) s
            (fun s' hs' hne' => no_match_on_token_suffix hb₁ hb₂ hne s' s hs' hne')]
          have hpre2 : isPre (token k₁) (token k₁ ++ replaceAll (token k₂) v₂ s) = true :=
            isPre_iff.mpr ⟨_, rfl⟩
          rw [replaceAll_pos v₁ hp4 hpre2, List.drop_left]
          rw [ih s hslen]
      | false =>
        cases h2 : isPre (token k₂) (c :: t') with
        | true =>
          obtain ⟨s, hs⟩ := isPre_iff.mp h2
          have hdrop : (c :: t').drop (token k₂).length = s := by rw [← hs, List.drop_left]
          have hslen : s.length ≤ n := by
            have hls := congrArg List.length hs
            have hl : 0 < (token k₂).length := List.length_pos.mpr hq4
            simp only [List.length_append, List.length_cons] at hls
            simp only [List.length_cons] at ht
            omega
          rw [replaceAll_pos v₂ hq4 h2, hdrop]
          rw [replaceAll_append_of_no_match hp4 v₂ (replaceAll (token k₂) v₂ s)
            (fun s' hs' hne' => no_match_in_value hp4 hd₂₁ s' _ hs' hne')]
          rw [← hs]
          rw [replaceAll_append_of_no_match hp4 (token k₂) s
            (fun s' hs' hne' => no_match_on_token_suffix hb₂ hb₁ (Ne.symm hne) s' s hs' hne')]
          have hpre2 : isPre (token k₂) (token k₂ ++ replaceAll (token k₁) v₁ s) = true :=
            isPre_iff.mpr ⟨_, rfl⟩
          rw [replaceAll_pos v₂ hq4 hpre2, List.drop_left]
          rw [ih s hslen]
        | false =>
          have hq' : isPre (token k₂) (c :: replaceAll (token k₁) v₁ t') = false := by
            cases hx : isPre (token k₂) (c :: replaceAll (token k₁) v₁ t') with
            | false => rfl
            | true =>
              exfalso
              rw [← replaceAll_neg v₁ hp4 h1] at hx
              have := isPre_replaceAll_pres hv₁ (c :: t').length (c :: t') (token k₂)
                le_rfl hd₁₂ hx
              rw [this] at h2
              cases h2
          have hp' : isPre (token k₁) (c :: replaceAll (token k₂) v₂ t') = false := by
            cases hx : isPre (token k₁) (c :: replaceAll (token k₂) v₂ t') with
            | false => rfl
            | true =>
              exfalso
              rw [← replaceAll_neg v₂ hq4 h2] at hx
              have := isPre_replaceAll_pres hv₂ (c :: t').length (c :: t') (token k₁)
                le_rfl hd₂₁ hx
              rw [this] at h1
              cases h1
          have hlen : t'.length ≤ n := by simp only [List.length_cons] at ht; omega
          rw [replaceAll_neg v₁ hp4 h1, replaceAll_neg v₂ hq4 h2,
            replaceAll_neg v₂ hq4 hq', replaceAll_neg v₁ hp4 hp', ih t' hlen]

/-- Counterexample to C4 as stated: a table with pairwise distinct keys whose
result depends on the order of application (the first value contains the
second key's token). -/
theorem substitution_order_counterexample :
    strL "A" ≠ strL "B" ∧
      applyRepl [(strL "A", strL "{{B}}"), (strL "B", strL "x")] (strL "{{A}}") ≠
        applyRepl [(strL "B", strL "x"), (strL "A", strL "{{B}}")] (strL "{{A}}") := by
  decide

/-- C4 amended: for every template text and every replacement table whose keys
are pairwise distinct and brace-free and whose values are nonempty and share
no character with any placeholder token of the table, applying the global
literal replacements in any two orders of the table's entries yields the same
final text. -/
theorem substitution_order_independent (table₁ table₂ : List (Text × Text)) (t : Text)
    (hperm : table₁.Perm table₂)
    (hkeys : (table₁.map Prod.fst).Pairwise (fun a b => a ≠ b))
    (hbrace : ∀ kv ∈ table₁, braceFree kv.1 = true)
    (hv : ∀ kv ∈ table₁, kv.2 ≠ [])
    (hd : ∀ kv ∈ table₁, ∀ c ∈ kv.2, ∀ kv' ∈ table₁, c ∉ token kv'.1) :
    applyRepl table₁ t = applyRepl table₂ t := by
  unfold applyRepl
  refine hperm.foldl_eq' ?_ t
  intro x hx y hy z
  by_cases hxy : x = y
  · subst hxy; rfl
  · have hpair : table₁.Pairwise (fun a b : Text × Text => a.1 ≠ b.1) := by
      rw [List.pairwise_map] at hkeys
      exact hkeys
    have hk : x.1 ≠ y.1 :=
      hpair.forall (fun a b h => h.symm) hx hy hxy
    exact (replaceAll_comm (hbrace x hx) (hbrace y hy) hk (hv x hx) (hv y hy)
      (fun c hc => hd x hx c hc y hy) (fun c hc => hd y hy c hc x hx) z)

/-- Witness for the amended C4 on a concrete two-entry table and its
transposition. -/
theorem substitution_order_independent_witness :
    applyRepl [(strL "A", strL "1"), (strL "B", strL "2")] (strL "{{B}}y{{A}}") =
      applyRepl [(strL "B", strL "2"), (strL "A", strL "1")] (strL "{{B}}y{{A}}") :=
  substitution_order_independent
    [(strL "A", strL "1"), (strL "B", strL "2")]
    [(strL "B", strL "2"), (strL "A", strL "1")]
    (strL "{{B}}y{{A}}")
    (List.Perm.swap (strL "B", strL "2") (strL "A", strL "1") [])
    (by decide) (by decide) (by decide) (by decide)

end Scaffold
